import Mathlib

/-!
Shallow embedding of the planner of this repository (`scripts/planner.py`).

The allocation core is `plan_tasks` together with `get_remaining_weekdays`
and `save_plan`.  Python dictionaries keyed by the (pairwise distinct)
window days are represented positionally: the allocation state is the list,
in window order, of each day's running load (`day_points[day]`) paired with
its assigned task sequence (`plan[day]`).  `datetime.now()` is made an
explicit parameter; a calendar day is a natural number counted from a
Monday epoch, so `weekday d = d % 7` matches `datetime.weekday()`
(Monday = 0 … Sunday = 6).
-/

namespace Planner

/-- A normalized task record as built by `collect_all_issues`. -/
structure Task where
  project : String
  repo : String
  number : Nat
  title : String
  url : String
  priority : Nat
  points : Nat
  labels : List String
deriving Repr, DecidableEq, Inhabited

/-- `MAX_POINTS_PER_DAY = 6`. -/
def MAX_POINTS_PER_DAY : Nat := 6

/-- One day's allocation state: running load (`day_points[day]`) and
assigned task sequence (`plan[day]`). -/
abbrev DayState := Nat × List Task

/-- The sort key of `plan_tasks`: lexicographic order on
`(t["priority"], t["points"])`, as used by `sorted(issues, key=...)`. -/
def taskKeyLE (a b : Task) : Prop :=
  a.priority < b.priority ∨ (a.priority = b.priority ∧ a.points ≤ b.points)

instance : DecidableRel taskKeyLE := fun a b => by
  unfold taskKeyLE; exact inferInstance

instance : IsTotal Task taskKeyLE :=
  ⟨by intro a b; unfold taskKeyLE; omega⟩

instance : IsTrans Task taskKeyLE :=
  ⟨by intro a b c; unfold taskKeyLE; omega⟩

/-- `sorted_issues = sorted(issues, key=lambda t: (t["priority"], t["points"]))`.
Python's `sorted` is a stable sort; insertion sort is stable, and a stable
sort by a total preorder is unique, so this is the same list. -/
def sortIssues (issues : List Task) : List Task :=
  List.insertionSort taskKeyLE issues

/-- The first-fit scan `for day in days: if day_points[day] + points <= MAX_POINTS_PER_DAY`,
returning the position of the first day with room, if any. -/
def firstFit (p : Nat) : List DayState → Option Nat
  | [] => none
  | d :: rest =>
    if d.1 + p ≤ MAX_POINTS_PER_DAY then some 0
    else (firstFit p rest).map (· + 1)

/-- The minimum of the current loads. -/
def minLoad : List DayState → Nat
  | [] => 0
  | [d] => d.1
  | d :: rest => min d.1 (minLoad rest)

/-- Position of the first day whose load is `v`. -/
def idxOfLoad (v : Nat) : List DayState → Nat
  | [] => 0
  | d :: rest => if d.1 = v then 0 else idxOfLoad v rest + 1

/-- `min(days, key=lambda d: day_points[d])`: Python's `min` returns the
first element attaining the minimum, i.e. the first position whose load
equals the minimum load. -/
def minLoadIdx (st : List DayState) : Nat := idxOfLoad (minLoad st) st

/-- `plan[day].append(task); day_points[day] += points` at window position `i`. -/
def updateDay (t : Task) : Nat → List DayState → List DayState
  | _, [] => []
  | 0, d :: rest => (d.1 + t.points, d.2 ++ [t]) :: rest
  | i + 1, d :: rest => d :: updateDay t i rest

/-- The window position a task is assigned to: the first-fit day if one has
room, otherwise the least-loaded day (`min_day`). -/
def assignIdx (st : List DayState) (t : Task) : Nat :=
  match firstFit t.points st with
  | some i => i
  | none => minLoadIdx st

/-- Whether the task takes the overflow branch (`if not assigned`). -/
def isOverflow (st : List DayState) (t : Task) : Bool :=
  (firstFit t.points st).isNone

/-- One iteration of the `for task in sorted_issues` loop. -/
def planStep (st : List DayState) (t : Task) : List DayState :=
  updateDay t (assignIdx st t) st

/-- `plan = {day: [] for day in days}; day_points = {day: 0 for day in days}`. -/
def initState (n : Nat) : List DayState := List.replicate n (0, [])

/-- `plan_tasks`, with the day window an explicit argument (the Python code
derives it once, at entry, from the clock).  Returns the plan as the list
of `(day, assigned sequence)` pairs in window order. -/
def planTasks (issues : List Task) (days : List Nat) : List (Nat × List Task) :=
  if days = [] then []
  else days.zip (((sortIssues issues).foldl planStep (initState days.length)).map Prod.snd)

/-- One record of the allocation trace: the processed task, the window
position it was assigned to, and whether the overflow branch fired. -/
structure TraceEntry where
  task : Task
  dayIdx : Nat
  overflow : Bool
deriving Repr, DecidableEq, Inhabited

/-- The assignment trace of the `for task in sorted_issues` loop. -/
def planTraceAux : List Task → List DayState → List TraceEntry
  | [], _ => []
  | t :: rest, st => ⟨t, assignIdx st t, isOverflow st t⟩ :: planTraceAux rest (planStep st t)

/-- The assignment trace of `plan_tasks`. -/
def planTrace (issues : List Task) (days : List Nat) : List TraceEntry :=
  if days = [] then [] else planTraceAux (sortIssues issues) (initState days.length)

/-- The allocation state just before the `k`-th iteration of the loop. -/
def stateAt (issues : List Task) (days : List Nat) (k : Nat) : List DayState :=
  ((sortIssues issues).take k).foldl planStep (initState days.length)

/-- The load of the day at window position `i`. -/
def loadAt (st : List DayState) (i : Nat) : Nat := (st.getD i (0, [])).1

/-- The assigned sequence of the day at window position `i`. -/
def dayTasks (st : List DayState) (i : Nat) : List Task := (st.getD i (0, [])).2

/-- The sum of all days' loads. -/
def loadSum (st : List DayState) : Nat := (st.map Prod.fst).sum

/-- `datetime.weekday()` for a day counted from a Monday epoch. -/
def weekday (d : Nat) : Nat := d % 7

/-- The `while current.weekday() < 5` collection loop of
`get_remaining_weekdays`; it runs at most five iterations, so any fuel
above six is invisible. -/
def collectLoop : Nat → Nat → List Nat
  | 0, _ => []
  | fuel + 1, c => if weekday c < 5 then c :: collectLoop fuel (c + 1) else []

/-- `get_remaining_weekdays`, with `datetime.now()` an explicit parameter. -/
def getRemainingWeekdays (today : Nat) : List Nat :=
  let current := if weekday today ≥ 5 then today + (7 - weekday today) else today
  collectLoop 7 current

/-- Modelled from the spec: the canonical Monday–Friday window of the run —
the five weekdays of the week the run targets (rolling a weekend instant
forward to the following Monday). -/
def canonicalWindow (today : Nat) : List Nat :=
  let monday := if weekday today ≥ 5 then today + (7 - weekday today) else today - weekday today
  List.range' monday 5

/-- Modelled from the spec: one planning run with the external plan
generator (§4.3).  The generator itself is absent from the sources (only
its `GEMINI_API_KEY` configuration is declared), so its validated outcome
is modelled abstractly: `gen n` is the outcome of the `n`-th generation
attempt, `none` standing for any GeneratorFailure or transport/timeout
error.  The run consults attempt `0` only, and on failure invokes the
deterministic allocator on the identical backlog and the canonical
Monday–Friday window. -/
def runPlanner (gen : Nat → Option (List (Nat × List Task)))
    (issues : List Task) (today : Nat) : List (Nat × List Task) :=
  match gen 0 with
  | some p => p
  | none => planTasks issues (canonicalWindow today)

/-- A Gregorian calendar date, as `datetime.date`. -/
structure Date where
  year : Nat
  month : Nat
  day : Nat
deriving Repr, DecidableEq, Inhabited

/-- Gregorian leap year. -/
def isLeap (y : Nat) : Bool := (y % 4 == 0 && y % 100 != 0) || y % 400 == 0

/-- Length of month `m` of year `y`. -/
def daysInMonth (y m : Nat) : Nat :=
  if m = 2 then (if isLeap y then 29 else 28)
  else if m = 4 ∨ m = 6 ∨ m = 9 ∨ m = 11 then 30
  else 31

/-- Days in year `y` strictly before month `m`. -/
def daysBeforeMonth (y m : Nat) : Nat :=
  ((List.range' 1 (m - 1)).map (daysInMonth y)).sum

/-- Days before January 1 of year `y` (CPython `_days_before_year`). -/
def daysBeforeYear (y : Nat) : Nat :=
  (y - 1) * 365 + (y - 1) / 4 - (y - 1) / 100 + (y - 1) / 400

/-- Proleptic Gregorian ordinal (CPython `_ymd2ord`): day 1 is 0001-01-01. -/
def toOrdinal (d : Date) : Nat :=
  daysBeforeYear d.year + daysBeforeMonth d.year d.month + d.day

/-- CPython `_isoweek1monday`: the ordinal of the Monday starting ISO week 1
of year `y`. -/
def isoweek1monday (y : Nat) : Int :=
  let firstday : Int := (toOrdinal ⟨y, 1, 1⟩ : Nat)
  let firstweekday := (firstday + 6).emod 7
  let week1monday := firstday - firstweekday
  if 3 < firstweekday then week1monday + 7 else week1monday

/-- CPython `date.isocalendar()`: (ISO year, ISO week, ISO weekday). -/
def isocalendar (d : Date) : Nat × Nat × Nat :=
  let today : Int := (toOrdinal d : Nat)
  let w1m := isoweek1monday d.year
  let week := (today - w1m).ediv 7
  let dayw := (today - w1m).emod 7
  if week < 0 then
    let w1m2 := isoweek1monday (d.year - 1)
    let week2 := (today - w1m2).ediv 7
    let dayw2 := (today - w1m2).emod 7
    (d.year - 1, (week2 + 1).toNat, (dayw2 + 1).toNat)
  else if 52 ≤ week ∧ isoweek1monday (d.year + 1) ≤ today then
    (d.year + 1, 1, (dayw + 1).toNat)
  else
    (d.year, (week + 1).toNat, (dayw + 1).toNat)

/-- The `{week:02d}` field: a week number padded to two digits. -/
def pad2 (n : Nat) : String := if n < 10 then "0" ++ toString n else toString n

/-- The persisted key of `save_plan`:
`f"{today.year}-W{week:02d}"` with `_, week, _ = today.isocalendar()` —
note it pairs the *calendar* year with the ISO week number. -/
def weekKey (d : Date) : String :=
  toString d.year ++ "-W" ++ pad2 (isocalendar d).2.1

/-- The identifier in the spec's words: the ISO week date's year (ISO year)
paired with the ISO week number, in the same format. -/
def isoWeekKey (d : Date) : String :=
  toString (isocalendar d).1 ++ "-W" ++ pad2 (isocalendar d).2.1

/-- A task carrying only the two allocation-relevant fields. -/
def mkTask (pr pt : Nat) : Task := ⟨"", "", 0, "", "", pr, pt, []⟩

/-! ### Basic state lemmas -/

lemma loadAt_cons_succ (d : DayState) (rest : List DayState) (j : Nat) :
    loadAt (d :: rest) (j + 1) = loadAt rest j := rfl

lemma dayTasks_cons_succ (d : DayState) (rest : List DayState) (j : Nat) :
    dayTasks (d :: rest) (j + 1) = dayTasks rest j := rfl

lemma updateDay_length (t : Task) : ∀ (i : Nat) (st : List DayState),
    (updateDay t i st).length = st.length := by
  intro i st
  induction st generalizing i with
  | nil => cases i <;> rfl
  | cons d rest ih => cases i with
    | zero => rfl
    | succ i => simpa [updateDay] using ih i

lemma updateDay_ge (t : Task) : ∀ (i : Nat) (st : List DayState),
    st.length ≤ i → updateDay t i st = st := by
  intro i st
  induction st generalizing i with
  | nil => cases i <;> intro _ <;> rfl
  | cons d rest ih =>
    cases i with
    | zero => intro h; simp at h
    | succ i =>
      intro h
      simp only [updateDay]
      rw [ih i (by simpa using h)]

lemma loadAt_updateDay_self (t : Task) : ∀ (i : Nat) (st : List DayState),
    i < st.length → loadAt (updateDay t i st) i = loadAt st i + t.points := by
  intro i st
  induction st generalizing i with
  | nil => intro h; simp at h
  | cons d rest ih =>
    cases i with
    | zero => intro _; rfl
    | succ i =>
      intro h
      simp only [updateDay, loadAt_cons_succ]
      exact ih i (by simpa using h)

lemma dayTasks_updateDay_self (t : Task) : ∀ (i : Nat) (st : List DayState),
    i < st.length → dayTasks (updateDay t i st) i = dayTasks st i ++ [t] := by
  intro i st
  induction st generalizing i with
  | nil => intro h; simp at h
  | cons d rest ih =>
    cases i with
    | zero => intro _; rfl
    | succ i =>
      intro h
      simp only [updateDay, dayTasks_cons_succ]
      exact ih i (by simpa using h)

lemma loadAt_updateDay_ne (t : Task) : ∀ (i j : Nat) (st : List DayState),
    j ≠ i → loadAt (updateDay t i st) j = loadAt st j := by
  intro i j st
  induction st generalizing i j with
  | nil => intro _; cases i <;> rfl
  | cons d rest ih =>
    cases i with
    | zero =>
      intro hj
      cases j with
      | zero => omega
      | succ j => rfl
    | succ i =>
      intro hj
      cases j with
      | zero => rfl
      | succ j =>
        simp only [updateDay, loadAt_cons_succ]
        exact ih i j (by omega)

lemma dayTasks_updateDay_ne (t : Task) : ∀ (i j : Nat) (st : List DayState),
    j ≠ i → dayTasks (updateDay t i st) j = dayTasks st j := by
  intro i j st
  induction st generalizing i j with
  | nil => intro _; cases i <;> rfl
  | cons d rest ih =>
    cases i with
    | zero =>
      intro hj
      cases j with
      | zero => omega
      | succ j => rfl
    | succ i =>
      intro hj
      cases j with
      | zero => rfl
      | succ j =>
        simp only [updateDay, dayTasks_cons_succ]
        exact ih i j (by omega)

lemma loadSum_updateDay (t : Task) : ∀ (i : Nat) (st : List DayState),
    i < st.length → loadSum (updateDay t i st) = loadSum st + t.points := by
  intro i st
  induction st generalizing i with
  | nil => intro h; simp at h
  | cons d rest ih =>
    cases i with
    | zero => intro _; simp [updateDay, loadSum]; omega
    | succ i =>
      intro h
      simp only [updateDay, loadSum, List.map_cons, List.sum_cons] at *
      rw [ih i (by simpa using h)]
      omega

/-! ### First-fit scan -/

lemma firstFit_some_spec (p : Nat) : ∀ (st : List DayState) (i : Nat),
    firstFit p st = some i →
    i < st.length ∧ loadAt st i + p ≤ MAX_POINTS_PER_DAY ∧
      ∀ j < i, MAX_POINTS_PER_DAY < loadAt st j + p := by
  intro st
  induction st with
  | nil => intro i h; simp [firstFit] at h
  | cons d rest ih =>
    intro i h
    by_cases hd : d.1 + p ≤ MAX_POINTS_PER_DAY
    · simp [firstFit, hd] at h
      subst h
      exact ⟨by simp, hd, by omega⟩
    · simp [firstFit, hd] at h
      obtain ⟨i0, h0, rfl⟩ := h
      obtain ⟨h1, h2, h3⟩ := ih i0 h0
      refine ⟨by simpa using h1, by simpa [loadAt_cons_succ] using h2, ?_⟩
      intro j hj
      cases j with
      | zero => simpa [loadAt] using Nat.lt_of_not_le hd
      | succ j => simpa [loadAt_cons_succ] using h3 j (by omega)

lemma firstFit_none_spec (p : Nat) : ∀ (st : List DayState),
    firstFit p st = none → ∀ j < st.length, MAX_POINTS_PER_DAY < loadAt st j + p := by
  intro st
  induction st with
  | nil => intro _ j hj; simp at hj
  | cons d rest ih =>
    intro h j hj
    by_cases hd : d.1 + p ≤ MAX_POINTS_PER_DAY
    · simp [firstFit, hd] at h
    · simp [firstFit, hd] at h
      cases j with
      | zero => simpa [loadAt] using Nat.lt_of_not_le hd
      | succ j => simpa [loadAt_cons_succ] using ih h j (by simpa using hj)

lemma firstFit_isSome_of_fit (p : Nat) : ∀ (st : List DayState) (j : Nat),
    j < st.length → loadAt st j + p ≤ MAX_POINTS_PER_DAY →
    (firstFit p st).isSome = true := by
  intro st
  induction st with
  | nil => intro j hj; simp at hj
  | cons d rest ih =>
    intro j hj hfit
    by_cases hd : d.1 + p ≤ MAX_POINTS_PER_DAY
    · simp [firstFit, hd]
    · cases j with
      | zero => exact absurd hfit hd
      | succ j =>
        have := ih j (by simpa using hj) (by simpa [loadAt_cons_succ] using hfit)
        simp only [firstFit, if_neg hd]
        cases hf : firstFit p rest with
        | none => rw [hf] at this; simp at this
        | some i => simp

/-! ### Minimum-load day -/

lemma minLoad_le : ∀ (st : List DayState), ∀ j < st.length, minLoad st ≤ loadAt st j := by
  intro st
  induction st with
  | nil => intro j hj; simp at hj
  | cons d rest ih =>
    intro j hj
    cases rest with
    | nil =>
      cases j with
      | zero => simp [minLoad, loadAt]
      | succ j => simp at hj
    | cons e rest2 =>
      cases j with
      | zero => simp [minLoad, loadAt]
      | succ j =>
        have := ih j (by simpa using hj)
        simp only [minLoad, loadAt_cons_succ]
        omega

lemma minLoad_mem : ∀ (st : List DayState), st ≠ [] → ∃ d ∈ st, d.1 = minLoad st := by
  intro st
  induction st with
  | nil => intro h; exact absurd rfl h
  | cons d rest ih =>
    intro _
    cases rest with
    | nil => exact ⟨d, by simp, rfl⟩
    | cons e rest2 =>
      obtain ⟨d0, hmem, hval⟩ := ih (by simp)
      by_cases hc : d.1 ≤ minLoad (e :: rest2)
      · refine ⟨d, by simp, ?_⟩
        simp only [minLoad]
        omega
      · refine ⟨d0, by simp [hmem], ?_⟩
        simp only [minLoad]
        omega

lemma idxOfLoad_spec (v : Nat) : ∀ (st : List DayState),
    (∃ d ∈ st, d.1 = v) →
    idxOfLoad v st < st.length ∧ loadAt st (idxOfLoad v st) = v ∧
      ∀ j < idxOfLoad v st, loadAt st j ≠ v := by
  intro st
  induction st with
  | nil => intro h; simp at h
  | cons d rest ih =>
    intro h
    by_cases hd : d.1 = v
    · simp only [idxOfLoad, if_pos hd]
      exact ⟨by simp, hd, by omega⟩
    · simp only [idxOfLoad, if_neg hd]
      have hrest : ∃ d0 ∈ rest, d0.1 = v := by
        obtain ⟨d0, hmem, hval⟩ := h
        rcases List.mem_cons.mp hmem with rfl | hmem2
        · exact absurd hval hd
        · exact ⟨d0, hmem2, hval⟩
      obtain ⟨h1, h2, h3⟩ := ih hrest
      refine ⟨by simpa using h1, by simpa [loadAt_cons_succ] using h2, ?_⟩
      intro j hj
      cases j with
      | zero => simpa [loadAt] using hd
      | succ j => simpa [loadAt_cons_succ] using h3 j (by omega)

lemma minLoadIdx_spec (st : List DayState) (h : st ≠ []) :
    minLoadIdx st < st.length ∧ loadAt st (minLoadIdx st) = minLoad st ∧
      ∀ j < minLoadIdx st, minLoad st < loadAt st j := by
  unfold minLoadIdx
  obtain ⟨h1, h2, h3⟩ := idxOfLoad_spec (minLoad st) st (minLoad_mem st h)
  refine ⟨h1, h2, ?_⟩
  intro j hj
  have hle := minLoad_le st j (by omega)
  have hne := h3 j hj
  omega

/-! ### Single allocation step -/

lemma assignIdx_lt (st : List DayState) (t : Task) (h : st ≠ []) :
    assignIdx st t < st.length := by
  unfold assignIdx
  cases hf : firstFit t.points st with
  | some i => exact (firstFit_some_spec t.points st i hf).1
  | none => exact (minLoadIdx_spec st h).1

lemma planStep_length (st : List DayState) (t : Task) :
    (planStep st t).length = st.length := updateDay_length t _ st

lemma foldl_planStep_length : ∀ (l : List Task) (st : List DayState),
    (l.foldl planStep st).length = st.length := by
  intro l
  induction l with
  | nil => intro st; rfl
  | cons t rest ih =>
    intro st
    simp only [List.foldl_cons]
    rw [ih (planStep st t), planStep_length]

lemma loadAt_planStep_le (st : List DayState) (t : Task) (j : Nat) :
    loadAt st j ≤ loadAt (planStep st t) j := by
  unfold planStep
  by_cases hj : j = assignIdx st t
  · subst hj
    by_cases hlt : assignIdx st t < st.length
    · rw [loadAt_updateDay_self t _ st hlt]; omega
    · rw [updateDay_ge t _ st (by omega)]
  · rw [loadAt_updateDay_ne t _ _ st hj]

lemma loadAt_foldl_planStep_le : ∀ (l : List Task) (st : List DayState) (j : Nat),
    loadAt st j ≤ loadAt (l.foldl planStep st) j := by
  intro l
  induction l with
  | nil => intro st j; exact le_refl _
  | cons t rest ih =>
    intro st j
    calc loadAt st j ≤ loadAt (planStep st t) j := loadAt_planStep_le st t j
    _ ≤ loadAt (rest.foldl planStep (planStep st t)) j := ih (planStep st t) j

lemma mem_dayTasks_planStep (st : List DayState) (t : Task) (j : Nat) (x : Task)
    (h : x ∈ dayTasks st j) : x ∈ dayTasks (planStep st t) j := by
  unfold planStep
  by_cases hj : j = assignIdx st t
  · subst hj
    by_cases hlt : assignIdx st t < st.length
    · rw [dayTasks_updateDay_self t _ st hlt]
      exact List.mem_append_left _ h
    · rwa [updateDay_ge t _ st (by omega)]
  · rwa [dayTasks_updateDay_ne t _ _ st hj]

lemma mem_dayTasks_foldl_planStep : ∀ (l : List Task) (st : List DayState) (j : Nat) (x : Task),
    x ∈ dayTasks st j → x ∈ dayTasks (l.foldl planStep st) j := by
  intro l
  induction l with
  | nil => intro st j x h; exact h
  | cons t rest ih =>
    intro st j x h
    exact ih (planStep st t) j x (mem_dayTasks_planStep st t j x h)

lemma loadSum_planStep (st : List DayState) (t : Task) (h : st ≠ []) :
    loadSum (planStep st t) = loadSum st + t.points :=
  loadSum_updateDay t _ st (assignIdx_lt st t h)

/-! ### Multiset accounting of the fold -/

lemma join_updateDay_perm (t : Task) : ∀ (i : Nat) (st : List DayState),
    i < st.length →
    ((updateDay t i st).map Prod.snd).join.Perm (t :: (st.map Prod.snd).join) := by
  intro i st
  induction st generalizing i with
  | nil => intro h; simp at h
  | cons d rest ih =>
    cases i with
    | zero =>
      intro _
      simp only [updateDay, List.map_cons, List.join_cons]
      have he : (d.2 ++ [t]) ++ (rest.map Prod.snd).join
          = d.2 ++ t :: (rest.map Prod.snd).join := by simp
      rw [he]
      exact List.perm_middle
    | succ i =>
      intro h
      simp only [updateDay, List.map_cons, List.join_cons]
      have h1 := (ih i (by simpa using h)).append_left d.2
      exact h1.trans List.perm_middle

lemma join_planStep_perm (st : List DayState) (t : Task) (h : st ≠ []) :
    ((planStep st t).map Prod.snd).join.Perm (t :: (st.map Prod.snd).join) :=
  join_updateDay_perm t _ st (assignIdx_lt st t h)

lemma join_foldl_planStep_perm : ∀ (l : List Task) (st : List DayState), st ≠ [] →
    ((l.foldl planStep st).map Prod.snd).join.Perm ((st.map Prod.snd).join ++ l) := by
  intro l
  induction l with
  | nil => intro st _; simp
  | cons t rest ih =>
    intro st h
    have hne : planStep st t ≠ [] := by
      intro he
      have := planStep_length st t
      rw [he] at this
      simp at this
      exact h (List.eq_nil_of_length_eq_zero this.symm)
    simp only [List.foldl_cons]
    have h2 := ih (planStep st t) hne
    have h3 := (join_planStep_perm st t h).append_right rest
    have h4 : ((t :: (st.map Prod.snd).join) ++ rest).Perm
        ((st.map Prod.snd).join ++ t :: rest) := List.perm_middle.symm
    exact h2.trans (h3.trans h4)

lemma initState_join (n : Nat) : ((initState n).map Prod.snd).join = [] := by
  induction n with
  | zero => rfl
  | succ n ih => simp only [initState, List.replicate_succ] at *; simpa using ih

lemma initState_length (n : Nat) : (initState n).length = n := by
  simp [initState]

lemma loadAt_initState (n j : Nat) : loadAt (initState n) j = 0 := by
  induction n generalizing j with
  | zero => cases j <;> rfl
  | succ n ih =>
    cases j with
    | zero => rfl
    | succ j => simpa only [initState, List.replicate_succ, loadAt_cons_succ] using ih j

lemma loadSum_initState (n : Nat) : loadSum (initState n) = 0 := by
  induction n with
  | zero => rfl
  | succ n ih => simp only [initState, loadSum, List.replicate_succ] at *; simpa using ih

/-! ### Plumbing from allocation state to the returned plan -/

lemma zip_map_snd : ∀ (a : List Nat) (b : List (List Task)), a.length = b.length →
    (a.zip b).map Prod.snd = b := by
  intro a
  induction a with
  | nil =>
    intro b h
    rw [List.eq_nil_of_length_eq_zero h.symm]
    rfl
  | cons x a ih =>
    intro b h
    cases b with
    | nil => simp at h
    | cons y b => simpa using ih b (by simpa using h)

lemma zip_getD_snd : ∀ (a : List Nat) (b : List (List Task)) (i : Nat),
    a.length = b.length → i < a.length →
    ((a.zip b).getD i (0, [])).2 = b.getD i [] := by
  intro a
  induction a with
  | nil => intro b i _ hi; simp at hi
  | cons x a ih =>
    intro b i hlen hi
    cases b with
    | nil => simp at hlen
    | cons y b =>
      cases i with
      | zero => rfl
      | succ i => simpa using ih b i (by simpa using hlen) (by simpa using hi)

lemma getD_map_snd : ∀ (st : List DayState) (i : Nat),
    (st.map Prod.snd).getD i [] = dayTasks st i := by
  intro st
  induction st with
  | nil => intro i; cases i <;> rfl
  | cons d rest ih =>
    intro i
    cases i with
    | zero => rfl
    | succ i => simpa [dayTasks_cons_succ] using ih i

/-! ### The allocation trace -/

lemma planTraceAux_length : ∀ (l : List Task) (st : List DayState),
    (planTraceAux l st).length = l.length := by
  intro l
  induction l with
  | nil => intro st; rfl
  | cons t rest ih => intro st; simpa [planTraceAux] using ih (planStep st t)

lemma planTraceAux_map_task : ∀ (l : List Task) (st : List DayState),
    (planTraceAux l st).map TraceEntry.task = l := by
  intro l
  induction l with
  | nil => intro st; rfl
  | cons t rest ih => intro st; simpa [planTraceAux] using ih (planStep st t)

lemma planTraceAux_getD : ∀ (l : List Task) (st : List DayState) (k : Nat), k < l.length →
    (planTraceAux l st).getD k default =
      ⟨l.getD k default, assignIdx ((l.take k).foldl planStep st) (l.getD k default),
        isOverflow ((l.take k).foldl planStep st) (l.getD k default)⟩ := by
  intro l
  induction l with
  | nil => intro st k hk; simp at hk
  | cons t rest ih =>
    intro st k hk
    cases k with
    | zero => rfl
    | succ k =>
      have := ih (planStep st t) k (by simpa using hk)
      simpa [planTraceAux] using this

lemma stateAt_succ (issues : List Task) (days : List Nat) (k : Nat)
    (hk : k < (sortIssues issues).length) :
    stateAt issues days (k + 1) =
      planStep (stateAt issues days k) ((sortIssues issues).getD k default) := by
  unfold stateAt
  rw [List.take_succ, List.foldl_append]
  have h1 : (sortIssues issues)[k]? = some ((sortIssues issues).getD k default) := by
    rw [List.getElem?_eq_getElem hk, List.getD_eq_getElem _ _ hk]
  rw [h1]
  rfl

lemma stateAt_succ_ge (issues : List Task) (days : List Nat) (k : Nat)
    (hk : (sortIssues issues).length ≤ k) :
    stateAt issues days (k + 1) = stateAt issues days k := by
  unfold stateAt
  rw [List.take_of_length_le hk, List.take_of_length_le (by omega)]

lemma loadAt_stateAt_mono (issues : List Task) (days : List Nat) (j : Nat) :
    ∀ (k k2 : Nat), k ≤ k2 →
    loadAt (stateAt issues days k) j ≤ loadAt (stateAt issues days k2) j := by
  intro k k2 hk
  induction k2 with
  | zero =>
    have : k = 0 := by omega
    subst this
    exact le_refl _
  | succ k2 ih =>
    by_cases he : k = k2 + 1
    · subst he; exact le_refl _
    · have h1 : loadAt (stateAt issues days k) j ≤ loadAt (stateAt issues days k2) j :=
        ih (by omega)
      by_cases hlen : k2 < (sortIssues issues).length
      · rw [stateAt_succ issues days k2 hlen]
        exact le_trans h1 (loadAt_planStep_le _ _ j)
      · rw [stateAt_succ_ge issues days k2 (by omega)]
        exact h1

lemma stateAt_length (issues : List Task) (days : List Nat) (k : Nat) :
    (stateAt issues days k).length = days.length := by
  unfold stateAt
  rw [foldl_planStep_length, initState_length]

/-! ### Stability of the sort -/

lemma keyEq_not_le (pr pt : Nat) (t b : Task)
    (hpt : (t.priority == pr && t.points == pt) = true)
    (hn : ¬ taskKeyLE t b) :
    (b.priority == pr && b.points == pt) = false := by
  simp only [Bool.and_eq_true, beq_iff_eq] at hpt
  by_contra h
  simp only [Bool.not_eq_false, Bool.and_eq_true, beq_iff_eq] at h
  exact hn (Or.inr ⟨by omega, by omega⟩)

lemma filter_orderedInsert_pos (p : Task → Bool) (t : Task) (l : List Task)
    (hpt : p t = true) (himp : ∀ b, ¬ taskKeyLE t b → p b = false) :
    (List.orderedInsert taskKeyLE t l).filter p = t :: l.filter p := by
  induction l with
  | nil => simp [List.orderedInsert, hpt]
  | cons b l ih =>
    by_cases h : taskKeyLE t b
    · simp [List.orderedInsert, h, List.filter_cons, hpt]
    · have hb := himp b h
      simp [List.orderedInsert, h, List.filter_cons, hb, ih]

lemma filter_orderedInsert_neg (p : Task → Bool) (t : Task) (l : List Task)
    (hpt : p t = false) :
    (List.orderedInsert taskKeyLE t l).filter p = l.filter p := by
  induction l with
  | nil => simp [List.orderedInsert, hpt]
  | cons b l ih =>
    by_cases h : taskKeyLE t b
    · simp [List.orderedInsert, h, List.filter_cons, hpt]
    · simp [List.orderedInsert, h, List.filter_cons, ih]

lemma filter_sortIssues_key (pr pt : Nat) (issues : List Task) :
    (sortIssues issues).filter (fun t => t.priority == pr && t.points == pt)
      = issues.filter (fun t => t.priority == pr && t.points == pt) := by
  induction issues with
  | nil => rfl
  | cons t l ih =>
    unfold sortIssues at *
    simp only [List.insertionSort]
    by_cases hp : (t.priority == pr && t.points == pt) = true
    · rw [filter_orderedInsert_pos _ t _ hp (fun b hb => keyEq_not_le pr pt t b hp hb), ih]
      simp [List.filter_cons, hp]
    · rw [filter_orderedInsert_neg _ t _ (by simpa using hp), ih]
      simp only [List.filter_cons]
      rw [if_neg (by simpa using hp)]

lemma sortIssues_sorted (issues : List Task) :
    List.Sorted taskKeyLE (sortIssues issues) :=
  List.sorted_insertionSort taskKeyLE issues

lemma sortIssues_perm (issues : List Task) : (sortIssues issues).Perm issues :=
  List.perm_insertionSort taskKeyLE issues

/-- In the sorted list, a strictly more urgent task sits strictly earlier. -/
lemma sorted_priority_pos (issues : List Task) (i j : Nat)
    (hi : i < (sortIssues issues).length) (hj : j < (sortIssues issues).length)
    (hp : ((sortIssues issues).getD i default).priority
        < ((sortIssues issues).getD j default).priority) : i < j := by
  by_contra hc
  have hji : j ≤ i := by omega
  rcases Nat.lt_or_ge j i with hlt | hge
  · have := (sortIssues_sorted issues).rel_get_of_lt
      (a := ⟨j, hj⟩) (b := ⟨i, hi⟩) hlt
    rw [← List.getD_eq_get _ default hj, ← List.getD_eq_get _ default hi] at this
    unfold taskKeyLE at this
    omega
  · have : i = j := by omega
    subst this
    omega

/-! ### Loads record exactly the assigned points -/

lemma loads_consistent_planStep (st : List DayState) (t : Task)
    (h : ∀ j < st.length, loadAt st j = ((dayTasks st j).map Task.points).sum) :
    ∀ j < st.length, loadAt (planStep st t) j = ((dayTasks (planStep st t) j).map Task.points).sum := by
  intro j hj
  unfold planStep
  by_cases hji : j = assignIdx st t
  · subst hji
    by_cases hlt : assignIdx st t < st.length
    · rw [loadAt_updateDay_self t _ st hlt, dayTasks_updateDay_self t _ st hlt]
      simp [h _ hj]
    · rw [updateDay_ge t _ st (by omega)]
      exact h _ hj
  · rw [loadAt_updateDay_ne t _ _ st hji, dayTasks_updateDay_ne t _ _ st hji]
    exact h _ hj

lemma loads_consistent_foldl : ∀ (l : List Task) (st : List DayState),
    (∀ j < st.length, loadAt st j = ((dayTasks st j).map Task.points).sum) →
    ∀ j < st.length, loadAt (l.foldl planStep st) j
      = ((dayTasks (l.foldl planStep st) j).map Task.points).sum := by
  intro l
  induction l with
  | nil => intro st h; exact h
  | cons t rest ih =>
    intro st h j hj
    simp only [List.foldl_cons]
    have hlen : (planStep st t).length = st.length := planStep_length st t
    exact ih (planStep st t) (fun j2 hj2 => loads_consistent_planStep st t h j2 (by omega))
      j (by omega)

lemma dayTasks_initState (n j : Nat) : dayTasks (initState n) j = [] := by
  induction n generalizing j with
  | zero => cases j <;> rfl
  | succ n ih =>
    cases j with
    | zero => rfl
    | succ j => simpa only [initState, List.replicate_succ, dayTasks_cons_succ] using ih j

/-! ### Capacity accounting -/

lemma length_mul_minLoad_le : ∀ st : List DayState, st.length * minLoad st ≤ loadSum st := by
  intro st
  induction st with
  | nil => simp [minLoad, loadSum]
  | cons d rest ih =>
    cases rest with
    | nil => simp [minLoad, loadSum]
    | cons e r =>
      have h1 : minLoad (d :: e :: r) = min d.1 (minLoad (e :: r)) := rfl
      have h2 := ih
      have h3 : (e :: r).length * min d.1 (minLoad (e :: r))
          ≤ (e :: r).length * minLoad (e :: r) :=
        Nat.mul_le_mul_left _ (min_le_right _ _)
      have h4 : min d.1 (minLoad (e :: r)) ≤ d.1 := min_le_left _ _
      have h5 : loadSum (d :: e :: r) = d.1 + loadSum (e :: r) := by simp [loadSum]
      have h6 : (d :: e :: r).length * minLoad (d :: e :: r)
          = (e :: r).length * min d.1 (minLoad (e :: r)) + min d.1 (minLoad (e :: r)) := by
        rw [h1, List.length_cons, Nat.succ_mul]
      rw [h6, h5]
      omega

lemma minLoad_le_five (st : List DayState) (p extra : Nat) (hne : st ≠ [])
    (hp : 1 ≤ p)
    (htot : loadSum st + p + extra ≤ MAX_POINTS_PER_DAY * st.length) :
    minLoad st ≤ 5 := by
  by_contra hm
  have h6 : 6 ≤ minLoad st := by omega
  have hmul : st.length * 6 ≤ st.length * minLoad st := Nat.mul_le_mul_left _ h6
  have hlen : 1 ≤ st.length := by
    cases st with
    | nil => exact absurd rfl hne
    | cons d r => simp
  have := length_mul_minLoad_le st
  unfold MAX_POINTS_PER_DAY at htot
  omega

lemma load_bound_fold (P : Nat) : ∀ (l : List Task) (st : List DayState), st ≠ [] →
    (∀ t ∈ l, 1 ≤ t.points ∧ t.points ≤ P) →
    loadSum st + (l.map Task.points).sum ≤ MAX_POINTS_PER_DAY * st.length →
    (∀ j < st.length, loadAt st j ≤ MAX_POINTS_PER_DAY - 1 + P) →
    ∀ j < st.length, loadAt (l.foldl planStep st) j ≤ MAX_POINTS_PER_DAY - 1 + P := by
  intro l
  induction l with
  | nil => intro st _ _ _ hload j hj; exact hload j hj
  | cons t rest ih =>
    intro st hne hpts htot hload j hj
    have hpt : 1 ≤ t.points ∧ t.points ≤ P := hpts t (by simp)
    have hP : 1 ≤ P := by omega
    have hlen : (planStep st t).length = st.length := planStep_length st t
    have hne2 : planStep st t ≠ [] := by
      intro he; rw [he] at hlen; exact hne (List.eq_nil_of_length_eq_zero hlen.symm)
    have hload2 : ∀ j2 < st.length, loadAt (planStep st t) j2 ≤ MAX_POINTS_PER_DAY - 1 + P := by
      intro j2 hj2
      unfold planStep
      cases hf : firstFit t.points st with
      | some i =>
        have hilt := (firstFit_some_spec t.points st i hf).1
        have hfit := (firstFit_some_spec t.points st i hf).2.1
        have hidx : assignIdx st t = i := by simp [assignIdx, hf]
        rw [hidx]
        by_cases hji : j2 = i
        · subst hji
          rw [loadAt_updateDay_self t _ st hilt]
          unfold MAX_POINTS_PER_DAY at *
          omega
        · rw [loadAt_updateDay_ne t _ _ st hji]
          exact hload j2 hj2
      | none =>
        have hidx : assignIdx st t = minLoadIdx st := by simp [assignIdx, hf]
        rw [hidx]
        obtain ⟨hmlt, hmval, _⟩ := minLoadIdx_spec st hne
        have hm5 : minLoad st ≤ 5 := by
          refine minLoad_le_five st t.points ((rest.map Task.points).sum) hne hpt.1 ?_
          simp only [List.map_cons, List.sum_cons] at htot
          omega
        by_cases hji : j2 = minLoadIdx st
        · subst hji
          rw [loadAt_updateDay_self t _ st (by omega)]
          rw [hmval]
          unfold MAX_POINTS_PER_DAY
          omega
        · rw [loadAt_updateDay_ne t _ _ st hji]
          exact hload j2 hj2
    have htot2 : loadSum (planStep st t) + (rest.map Task.points).sum
        ≤ MAX_POINTS_PER_DAY * (planStep st t).length := by
      rw [loadSum_planStep st t hne, hlen]
      simp only [List.map_cons, List.sum_cons] at htot
      omega
    have := ih (planStep st t) hne2 (fun x hx => hpts x (by simp [hx]))
      htot2 (fun j2 hj2 => hload2 j2 (by omega)) j (by omega)
    simpa using this

/-! ### Each day receives a subsequence of the processing order -/

lemma mem_updateDay_shape (t : Task) : ∀ (i : Nat) (st : List DayState) (ds : DayState),
    ds ∈ updateDay t i st → ∃ d0 ∈ st, ds.2 = d0.2 ∨ ds.2 = d0.2 ++ [t] := by
  intro i st
  induction st generalizing i with
  | nil => intro ds h; simp [updateDay] at h
  | cons d rest ih =>
    intro ds h
    cases i with
    | zero =>
      rcases List.mem_cons.mp h with rfl | h2
      · exact ⟨d, by simp, Or.inr rfl⟩
      · exact ⟨ds, by simp [h2], Or.inl rfl⟩
    | succ i =>
      rcases List.mem_cons.mp h with rfl | h2
      · exact ⟨ds, by simp, Or.inl rfl⟩
      · obtain ⟨d0, hmem, hor⟩ := ih i ds h2
        exact ⟨d0, by simp [hmem], hor⟩

lemma sublist_foldl_planStep : ∀ (l : List Task) (st : List DayState) (acc : List Task),
    (∀ ds ∈ st, ds.2.Sublist acc) →
    ∀ ds ∈ l.foldl planStep st, ds.2.Sublist (acc ++ l) := by
  intro l
  induction l with
  | nil => intro st acc h ds hds; simpa using h ds hds
  | cons t rest ih =>
    intro st acc h ds hds
    have hstep : ∀ ds2 ∈ planStep st t, ds2.2.Sublist (acc ++ [t]) := by
      intro ds2 hds2
      obtain ⟨d0, hmem, hor⟩ := mem_updateDay_shape t _ st ds2 hds2
      rcases hor with he | he
      · rw [he]
        exact (h d0 hmem).trans (List.sublist_append_left acc [t])
      · rw [he]
        exact (h d0 hmem).append (List.Sublist.refl [t])
    have := ih (planStep st t) (acc ++ [t]) hstep ds (by simpa using hds)
    simpa using this

/-! ### Calendar characterization -/

lemma collectLoop_eq_range : ∀ (fuel c : Nat), 5 - c % 7 < fuel →
    collectLoop fuel c = List.range' c (5 - c % 7) := by
  intro fuel
  induction fuel with
  | zero => intro c h; omega
  | succ fuel ih =>
    intro c h
    by_cases hc : c % 7 < 5
    · have hstep : collectLoop (fuel + 1) c = c :: collectLoop fuel (c + 1) := by
        simp [collectLoop, weekday, hc]
      have hmod : (c + 1) % 7 = c % 7 + 1 := by omega
      have h57 : 5 - c % 7 = (5 - (c + 1) % 7) + 1 := by omega
      rw [hstep, ih (c + 1) (by omega), h57]
      rfl
    · have hstep : collectLoop (fuel + 1) c = [] := by
        simp [collectLoop, weekday, hc]
      have h0 : 5 - c % 7 = 0 := by omega
      rw [hstep, h0]
      rfl

/-! ### Completeness of the allocator (shared helper) -/

lemma planTasks_join_perm (issues : List Task) (days : List Nat) (hd : days ≠ []) :
    ((planTasks issues days).map Prod.snd).join.Perm issues := by
  unfold planTasks
  rw [if_neg hd]
  have hlen : days.length = (((sortIssues issues).foldl planStep (initState days.length)).map Prod.snd).length := by
    rw [List.length_map, foldl_planStep_length, initState_length]
  rw [zip_map_snd _ _ hlen]
  have hne : initState days.length ≠ [] := by
    intro he
    have := initState_length days.length
    rw [he] at this
    exact hd (List.eq_nil_of_length_eq_zero this.symm)
  have h1 := join_foldl_planStep_perm (sortIssues issues) (initState days.length) hne
  rw [initState_join] at h1
  simp only [List.nil_append] at h1
  exact h1.trans (sortIssues_perm issues)

lemma planTasks_points_sum (issues : List Task) (days : List Nat) (hd : days ≠ []) :
    ((planTasks issues days).map (fun d => (d.2.map Task.points).sum)).sum
      = (issues.map Task.points).sum := by
  have hperm := (planTasks_join_perm issues days hd).map Task.points
  have hsum := hperm.sum_eq
  have hjoin : ∀ L : List (Nat × List Task),
      ((L.map Prod.snd).join.map Task.points).sum
        = (L.map (fun d => (d.2.map Task.points).sum)).sum := by
    intro L
    induction L with
    | nil => rfl
    | cons d rest ih =>
      simp only [List.map_cons, List.join_cons, List.map_append, List.sum_append,
        List.sum_cons]
      rw [ih]
  rw [← hjoin]
  exact hsum

/-! ### Claim theorems -/

/-- C1: for every input task list and every non-empty day window, the plan
returned by `plan_tasks` assigns every input task to exactly one day's
sequence — the concatenation of all days' sequences is a permutation of
the input backlog (no task lost, no task duplicated) — and the sum of
points over all days' assigned sequences equals the sum of the input
tasks' points. -/
theorem plan_tasks_complete (issues : List Task) (days : List Nat) (hd : days ≠ []) :
    ((planTasks issues days).map Prod.snd).join.Perm issues
    ∧ ((planTasks issues days).map (fun d => (d.2.map Task.points).sum)).sum
        = (issues.map Task.points).sum :=
  ⟨planTasks_join_perm issues days hd, planTasks_points_sum issues days hd⟩

theorem plan_tasks_complete_witness :
    ((planTasks [mkTask 1 5, mkTask 1 3, mkTask 5 1] [0, 1]).map Prod.snd).join.Perm
        [mkTask 1 5, mkTask 1 3, mkTask 5 1]
    ∧ ((planTasks [mkTask 1 5, mkTask 1 3, mkTask 5 1] [0, 1]).map
        (fun d => (d.2.map Task.points).sum)).sum
        = ([mkTask 1 5, mkTask 1 3, mkTask 5 1].map Task.points).sum :=
  plan_tasks_complete [mkTask 1 5, mkTask 1 3, mkTask 5 1] [0, 1] (by decide)

/-- C5: the allocator is deterministic — a pure function of the task list
and the day window; two invocations of `planTasks` on identical inputs
produce identical plans (the embedding of the allocation algorithm takes
no other input: no clock, no randomness). -/
theorem allocator_deterministic (issues1 issues2 : List Task) (days1 days2 : List Nat)
    (hi : issues1 = issues2) (hd : days1 = days2) :
    planTasks issues1 days1 = planTasks issues2 days2 := by
  rw [hi, hd]

theorem allocator_deterministic_witness :
    planTasks [mkTask 2 3] [0, 1] = planTasks [mkTask 2 3] [0, 1] :=
  allocator_deterministic [mkTask 2 3] [mkTask 2 3] [0, 1] [0, 1] rfl rfl

/-- C7: `plan_tasks` processes the tasks in the order obtained by sorting
the input list by the key (priority ascending, points ascending), and the
sort is stable: the sorted list is a permutation of the input, is sorted
by the key, and tasks tying on both priority and points keep their
original relative order (the sublist at any fixed key is unchanged). -/
theorem stable_sort_processing (issues : List Task) (days : List Nat) (hd : days ≠ []) :
    (planTrace issues days).map TraceEntry.task = sortIssues issues
    ∧ (sortIssues issues).Perm issues
    ∧ List.Sorted taskKeyLE (sortIssues issues)
    ∧ ∀ pr pt : Nat,
        (sortIssues issues).filter (fun t => t.priority == pr && t.points == pt)
          = issues.filter (fun t => t.priority == pr && t.points == pt) := by
  refine ⟨?_, sortIssues_perm issues, sortIssues_sorted issues,
    fun pr pt => filter_sortIssues_key pr pt issues⟩
  unfold planTrace
  rw [if_neg hd]
  exact planTraceAux_map_task _ _

theorem stable_sort_processing_witness :
    (planTrace [mkTask 5 1, mkTask 1 3] [0]).map TraceEntry.task
        = sortIssues [mkTask 5 1, mkTask 1 3]
    ∧ (sortIssues [mkTask 5 1, mkTask 1 3]).filter
        (fun t => t.priority == 1 && t.points == 3)
        = [mkTask 5 1, mkTask 1 3].filter (fun t => t.priority == 1 && t.points == 3) :=
  ⟨(stable_sort_processing [mkTask 5 1, mkTask 1 3] [0] (by decide)).1,
   (stable_sort_processing [mkTask 5 1, mkTask 1 3] [0] (by decide)).2.2.2 1 3⟩

/-- C8: a reference instant on Saturday or Sunday yields exactly the five
consecutive days starting at the next Monday (which is at most two days
ahead — the Monday–Friday window of the following week); a weekday
reference instant yields that day through the coming Friday inclusive,
between one and five consecutive days, the last being a Friday. -/
theorem weekday_window (today : Nat) :
    (5 ≤ weekday today →
      getRemainingWeekdays today = List.range' (today + (7 - today % 7)) 5
      ∧ weekday (today + (7 - today % 7)) = 0
      ∧ today < today + (7 - today % 7)
      ∧ today + (7 - today % 7) ≤ today + 2)
    ∧ (weekday today < 5 →
      getRemainingWeekdays today = List.range' today (5 - today % 7)
      ∧ 1 ≤ 5 - today % 7 ∧ 5 - today % 7 ≤ 5
      ∧ weekday (today + (5 - today % 7 - 1)) = 4) := by
  have hval : getRemainingWeekdays today
      = collectLoop 7 (if weekday today ≥ 5 then today + (7 - weekday today) else today) := rfl
  constructor
  · intro h
    have hmod : (today + (7 - today % 7)) % 7 = 0 := by
      unfold weekday at h
      omega
    rw [hval, if_pos (by simpa [weekday] using h)]
    refine ⟨?_, by simpa [weekday] using hmod, by unfold weekday at h; omega,
      by unfold weekday at h; omega⟩
    rw [collectLoop_eq_range 7 _ (by omega)]
    unfold weekday
    rw [hmod]
  · intro h
    unfold weekday at h
    rw [hval, if_neg (by simpa [weekday] using Nat.not_le.mpr h)]
    refine ⟨?_, by omega, by omega, by unfold weekday; omega⟩
    rw [collectLoop_eq_range 7 _ (by omega)]

theorem weekday_window_witness :
    (5 ≤ weekday 5
      ∧ getRemainingWeekdays 5 = List.range' (5 + (7 - 5 % 7)) 5
      ∧ weekday (5 + (7 - 5 % 7)) = 0)
    ∧ (weekday 2 < 5
      ∧ getRemainingWeekdays 2 = List.range' 2 (5 - 2 % 7)
      ∧ weekday (2 + (5 - 2 % 7 - 1)) = 4) :=
  ⟨⟨by decide, ((weekday_window 5).1 (by decide)).1, ((weekday_window 5).1 (by decide)).2.1⟩,
   ⟨by decide, ((weekday_window 2).2 (by decide)).1,
    ((weekday_window 2).2 (by decide)).2.2.2⟩⟩

/-- C10: in every plan produced by `plan_tasks`, each individual day's
task sequence is a subsequence of the sorted backlog, hence within any
single day tasks appear in nondecreasing order of the key
(priority, points). -/
theorem day_sequences_sorted (issues : List Task) (days : List Nat)
    (d : Nat × List Task) (hmem : d ∈ planTasks issues days) :
    d.2.Sublist (sortIssues issues) ∧ d.2.Pairwise taskKeyLE := by
  have hsub : d.2.Sublist (sortIssues issues) := by
    unfold planTasks at hmem
    by_cases hdays : days = []
    · rw [if_pos hdays] at hmem
      simp at hmem
    · rw [if_neg hdays] at hmem
      have hmem2 : d.2 ∈ ((sortIssues issues).foldl planStep (initState days.length)).map
          Prod.snd := (List.of_mem_zip hmem).2
      obtain ⟨ds, hds, hsnd⟩ := List.mem_map.mp hmem2
      have hinit : ∀ ds2 ∈ initState days.length, ds2.2.Sublist ([] : List Task) := by
        intro ds2 hds2
        rw [List.eq_of_mem_replicate hds2]
      have := sublist_foldl_planStep (sortIssues issues) (initState days.length) [] hinit ds hds
      rw [← hsnd]
      simpa using this
  exact ⟨hsub, (sortIssues_sorted issues).sublist hsub⟩

theorem day_sequences_sorted_witness :
    ((0, [mkTask 1 3, mkTask 5 1]) : Nat × List Task).2.Sublist
        (sortIssues [mkTask 1 5, mkTask 1 3, mkTask 5 1])
    ∧ ((0, [mkTask 1 3, mkTask 5 1]) : Nat × List Task).2.Pairwise taskKeyLE :=
  day_sequences_sorted [mkTask 1 5, mkTask 1 3, mkTask 5 1] [0, 1]
    (0, [mkTask 1 3, mkTask 5 1]) (by decide)

/-- C2 counterexample: the backlog with points [1, 1, 5, 5] (equal
priority) on a two-day window has total points 12 = 6 × 2 days, yet
first-fit sends both 1-point tasks and the first 5-point task so that the
last 5-point task finds no room anywhere and overflows the first day to
load 7 > 6: the claim as stated fails. -/
theorem soft_capacity_counterexample :
    (([mkTask 1 1, mkTask 1 1, mkTask 1 5, mkTask 1 5].map Task.points).sum
        ≤ MAX_POINTS_PER_DAY * ([0, 1] : List Nat).length)
    ∧ ¬ (∀ d ∈ planTasks [mkTask 1 1, mkTask 1 1, mkTask 1 5, mkTask 1 5] [0, 1],
        (d.2.map Task.points).sum ≤ MAX_POINTS_PER_DAY) := by
  decide

/-- C2 amended: if every task's points are positive and at most `P`, and
the total backlog points are at most `MAX_POINTS_PER_DAY` × number of
days, then every day's final load is at most `MAX_POINTS_PER_DAY - 1 + P`
(so at most 10 for the canonical points {1,3,5}); the bound
`MAX_POINTS_PER_DAY` itself is not guaranteed. -/
theorem soft_capacity_amended (issues : List Task) (days : List Nat) (P : Nat)
    (hd : days ≠ [])
    (hpts : ∀ t ∈ issues, 1 ≤ t.points ∧ t.points ≤ P)
    (htot : (issues.map Task.points).sum ≤ MAX_POINTS_PER_DAY * days.length) :
    ∀ d ∈ planTasks issues days,
      (d.2.map Task.points).sum ≤ MAX_POINTS_PER_DAY - 1 + P := by
  intro d hmem
  unfold planTasks at hmem
  rw [if_neg hd] at hmem
  have hmem2 : d.2 ∈ ((sortIssues issues).foldl planStep (initState days.length)).map
      Prod.snd := (List.of_mem_zip hmem).2
  obtain ⟨ds, hds, hsnd⟩ := List.mem_map.mp hmem2
  obtain ⟨j, hjlt, hjeq⟩ := List.mem_iff_getElem.mp hds
  have hflen : ((sortIssues issues).foldl planStep (initState days.length)).length
      = days.length := by
    rw [foldl_planStep_length, initState_length]
  have hdlen : 1 ≤ days.length := by
    cases days with
    | nil => exact absurd rfl hd
    | cons x r => simp
  have hne : initState days.length ≠ [] := by
    intro he
    have hl := initState_length days.length
    rw [he] at hl
    simp at hl
    omega
  have hcons : loadAt ((sortIssues issues).foldl planStep (initState days.length)) j
      = ((dayTasks ((sortIssues issues).foldl planStep (initState days.length)) j).map
          Task.points).sum := by
    apply loads_consistent_foldl (sortIssues issues) (initState days.length) ?_ j ?_
    · intro j2 _
      rw [loadAt_initState, dayTasks_initState]
      rfl
    · rw [initState_length]
      omega
  have hbound : loadAt ((sortIssues issues).foldl planStep (initState days.length)) j
      ≤ MAX_POINTS_PER_DAY - 1 + P := by
    apply load_bound_fold P (sortIssues issues) (initState days.length) hne ?_ ?_ ?_ j ?_
    · intro t ht
      exact hpts t ((sortIssues_perm issues).subset ht)
    · rw [loadSum_initState, initState_length]
      have hs : ((sortIssues issues).map Task.points).sum = (issues.map Task.points).sum :=
        ((sortIssues_perm issues).map Task.points).sum_eq
      omega
    · intro j2 _
      rw [loadAt_initState]
      omega
    · rw [initState_length]
      omega
  have hload : loadAt ((sortIssues issues).foldl planStep (initState days.length)) j
      = (d.2.map Task.points).sum := by
    rw [hcons]
    unfold dayTasks
    rw [List.getD_eq_getElem _ _ (by omega), hjeq, hsnd]
  omega

theorem soft_capacity_amended_witness :
    (((0, [mkTask 1 1]) : Nat × List Task).2.map Task.points).sum
      ≤ MAX_POINTS_PER_DAY - 1 + 1 :=
  soft_capacity_amended [mkTask 1 1] [0] 1 (by decide) (by decide) (by decide)
    (0, [mkTask 1 1]) (by decide)

/-- C3 counterexample: backlog [(priority 0, 3 pt), (priority 1, 5 pt),
(priority 2, 1 pt)] on a two-day window.  The priority-1 task does not fit
day 0 (3+5 > 6) and goes to day 1; the priority-2 task still fits day 0
(3+1 ≤ 6).  Both are placed without overflow, priority 1 < priority 2,
yet the more urgent task lands on the *later* day: the claim as stated
fails. -/
theorem front_loading_counterexample :
    ((planTrace [mkTask 0 3, mkTask 1 5, mkTask 2 1] [0, 1]).getD 1 default).task.priority
      < ((planTrace [mkTask 0 3, mkTask 1 5, mkTask 2 1] [0, 1]).getD 2 default).task.priority
    ∧ ((planTrace [mkTask 0 3, mkTask 1 5, mkTask 2 1] [0, 1]).getD 1 default).overflow = false
    ∧ ((planTrace [mkTask 0 3, mkTask 1 5, mkTask 2 1] [0, 1]).getD 2 default).overflow = false
    ∧ ¬ (((planTrace [mkTask 0 3, mkTask 1 5, mkTask 2 1] [0, 1]).getD 1 default).dayIdx
        ≤ ((planTrace [mkTask 0 3, mkTask 1 5, mkTask 2 1] [0, 1]).getD 2 default).dayIdx) := by
  decide

/-- C3 amended: for two processed tasks A and B with
priority(A) < priority(B) *and* points(A) ≤ points(B), if both are placed
without triggering the overflow branch then A's window position is at most
B's.  (Without the points condition the property fails, see the
counterexample: a large urgent task can be pushed past a day that a later,
smaller task still fits.) -/
theorem front_loading_amended (issues : List Task) (days : List Nat) (i j : Nat)
    (hi : i < (planTrace issues days).length) (hj : j < (planTrace issues days).length)
    (hprio : ((planTrace issues days).getD i default).task.priority
        < ((planTrace issues days).getD j default).task.priority)
    (hpts : ((planTrace issues days).getD i default).task.points
        ≤ ((planTrace issues days).getD j default).task.points)
    (hoi : ((planTrace issues days).getD i default).overflow = false)
    (hoj : ((planTrace issues days).getD j default).overflow = false) :
    ((planTrace issues days).getD i default).dayIdx
      ≤ ((planTrace issues days).getD j default).dayIdx := by
  by_cases hdays : days = []
  · rw [hdays] at hi
    simp [planTrace] at hi
  · have htr : planTrace issues days
        = planTraceAux (sortIssues issues) (initState days.length) := by
      unfold planTrace
      rw [if_neg hdays]
    rw [htr] at hi hj hprio hpts hoi hoj ⊢
    rw [planTraceAux_length] at hi hj
    have hEi : (planTraceAux (sortIssues issues) (initState days.length)).getD i default
        = ⟨(sortIssues issues).getD i default,
           assignIdx (stateAt issues days i) ((sortIssues issues).getD i default),
           isOverflow (stateAt issues days i) ((sortIssues issues).getD i default)⟩ :=
      planTraceAux_getD (sortIssues issues) (initState days.length) i hi
    have hEj : (planTraceAux (sortIssues issues) (initState days.length)).getD j default
        = ⟨(sortIssues issues).getD j default,
           assignIdx (stateAt issues days j) ((sortIssues issues).getD j default),
           isOverflow (stateAt issues days j) ((sortIssues issues).getD j default)⟩ :=
      planTraceAux_getD (sortIssues issues) (initState days.length) j hj
    rw [hEi] at hprio hpts hoi ⊢
    rw [hEj] at hprio hpts hoj ⊢
    dsimp only at hprio hpts hoi hoj ⊢
    have hij : i < j := sorted_priority_pos issues i j hi hj hprio
    cases hfI : firstFit ((sortIssues issues).getD i default).points (stateAt issues days i) with
    | none =>
      unfold isOverflow at hoi
      rw [hfI] at hoi
      simp at hoi
    | some kI =>
      cases hfJ : firstFit ((sortIssues issues).getD j default).points (stateAt issues days j) with
      | none =>
        unfold isOverflow at hoj
        rw [hfJ] at hoj
        simp at hoj
      | some kJ =>
        have hidxI : assignIdx (stateAt issues days i) ((sortIssues issues).getD i default)
            = kI := by
          unfold assignIdx
          rw [hfI]
        have hidxJ : assignIdx (stateAt issues days j) ((sortIssues issues).getD j default)
            = kJ := by
          unfold assignIdx
          rw [hfJ]
        show assignIdx (stateAt issues days i) ((sortIssues issues).getD i default)
          ≤ assignIdx (stateAt issues days j) ((sortIssues issues).getD j default)
        rw [hidxI, hidxJ]
        by_contra hcon
        have hlt : kJ < kI := by omega
        have hspecI := (firstFit_some_spec _ _ kI hfI).2.2 kJ hlt
        have hspecJ := (firstFit_some_spec _ _ kJ hfJ).2.1
        have hmono := loadAt_stateAt_mono issues days kJ i j (by omega)
        omega

theorem front_loading_amended_witness :
    ((planTrace [mkTask 0 3, mkTask 1 5, mkTask 2 1] [0, 1]).getD 0 default).dayIdx
      ≤ ((planTrace [mkTask 0 3, mkTask 1 5, mkTask 2 1] [0, 1]).getD 1 default).dayIdx :=
  front_loading_amended [mkTask 0 3, mkTask 1 5, mkTask 2 1] [0, 1] 0 1
    (by decide) (by decide) (by decide) (by decide) (by decide) (by decide)

/-- C6: for every processed task for which no day in the (non-empty)
window can take its points without exceeding capacity, the overflow branch
fires and `plan_tasks` assigns the task to the day carrying the current
minimum load — ties broken by the earliest window position (every earlier
day is strictly more loaded) — and the task ends up in that day's sequence
of the returned plan, so it is never dropped. -/
theorem overflow_policy (issues : List Task) (days : List Nat) (k : Nat)
    (hd : days ≠ []) (hk : k < (planTrace issues days).length)
    (hfull : ∀ j2 < (stateAt issues days k).length,
        MAX_POINTS_PER_DAY
          < loadAt (stateAt issues days k) j2
            + ((planTrace issues days).getD k default).task.points) :
    ((planTrace issues days).getD k default).overflow = true
    ∧ ((planTrace issues days).getD k default).dayIdx < days.length
    ∧ loadAt (stateAt issues days k) ((planTrace issues days).getD k default).dayIdx
        = minLoad (stateAt issues days k)
    ∧ (∀ j2 < (stateAt issues days k).length,
        minLoad (stateAt issues days k) ≤ loadAt (stateAt issues days k) j2)
    ∧ (∀ j2 < ((planTrace issues days).getD k default).dayIdx,
        minLoad (stateAt issues days k) < loadAt (stateAt issues days k) j2)
    ∧ ((planTrace issues days).getD k default).task
        ∈ ((planTasks issues days).getD
            ((planTrace issues days).getD k default).dayIdx (0, [])).2 := by
  have htr : planTrace issues days
      = planTraceAux (sortIssues issues) (initState days.length) := by
    unfold planTrace
    rw [if_neg hd]
  rw [htr] at hk hfull ⊢
  rw [planTraceAux_length] at hk
  have hE : (planTraceAux (sortIssues issues) (initState days.length)).getD k default
      = ⟨(sortIssues issues).getD k default,
         assignIdx (stateAt issues days k) ((sortIssues issues).getD k default),
         isOverflow (stateAt issues days k) ((sortIssues issues).getD k default)⟩ :=
    planTraceAux_getD (sortIssues issues) (initState days.length) k hk
  rw [hE] at hfull ⊢
  dsimp only at hfull ⊢
  have hstlen : (stateAt issues days k).length = days.length := stateAt_length issues days k
  have hdlen : 1 ≤ days.length := by
    cases days with
    | nil => exact absurd rfl hd
    | cons x r => simp
  have hstne : stateAt issues days k ≠ [] := by
    intro he
    rw [he] at hstlen
    simp at hstlen
    omega
  cases hf : firstFit ((sortIssues issues).getD k default).points (stateAt issues days k) with
  | some i =>
    have hspec := firstFit_some_spec _ _ i hf
    have := hfull i hspec.1
    omega
  | none =>
    have hov : isOverflow (stateAt issues days k) ((sortIssues issues).getD k default)
        = true := by
      unfold isOverflow
      rw [hf]
      rfl
    have hidx : assignIdx (stateAt issues days k) ((sortIssues issues).getD k default)
        = minLoadIdx (stateAt issues days k) := by
      unfold assignIdx
      rw [hf]
    obtain ⟨hmlt, hmval, hmties⟩ := minLoadIdx_spec (stateAt issues days k) hstne
    rw [hov, hidx]
    refine ⟨rfl, by omega, hmval, minLoad_le _, hmties, ?_⟩
    have hsucc : stateAt issues days (k + 1)
        = planStep (stateAt issues days k) ((sortIssues issues).getD k default) :=
      stateAt_succ issues days k hk
    have hmem1 : ((sortIssues issues).getD k default)
        ∈ dayTasks (stateAt issues days (k + 1)) (minLoadIdx (stateAt issues days k)) := by
      rw [hsucc]
      unfold planStep
      rw [hidx, dayTasks_updateDay_self _ _ _ (by omega)]
      simp
    have hsplit : (sortIssues issues).foldl planStep (initState days.length)
        = ((sortIssues issues).drop (k + 1)).foldl planStep (stateAt issues days (k + 1)) := by
      conv_lhs => rw [← List.take_append_drop (k + 1) (sortIssues issues)]
      rw [List.foldl_append]
      rfl
    have hmemfin : ((sortIssues issues).getD k default)
        ∈ dayTasks ((sortIssues issues).foldl planStep (initState days.length))
            (minLoadIdx (stateAt issues days k)) := by
      rw [hsplit]
      exact mem_dayTasks_foldl_planStep _ _ _ _ hmem1
    unfold planTasks
    rw [if_neg hd]
    have hmaplen : days.length
        = (((sortIssues issues).foldl planStep (initState days.length)).map Prod.snd).length := by
      rw [List.length_map, foldl_planStep_length, initState_length]
    rw [zip_getD_snd _ _ _ hmaplen (by omega), getD_map_snd]
    exact hmemfin

theorem overflow_policy_witness :
    ((planTrace [mkTask 1 1, mkTask 1 1, mkTask 1 5, mkTask 1 5] [0, 1]).getD 3 default).task
      ∈ ((planTasks [mkTask 1 1, mkTask 1 1, mkTask 1 5, mkTask 1 5] [0, 1]).getD
          ((planTrace [mkTask 1 1, mkTask 1 1, mkTask 1 5, mkTask 1 5] [0, 1]).getD 3
            default).dayIdx (0, [])).2 :=
  (overflow_policy [mkTask 1 1, mkTask 1 1, mkTask 1 5, mkTask 1 5] [0, 1] 3
    (by decide) (by decide) (by decide)).2.2.2.2.2

/-- C4 (generator modelled from the spec, §4.3 — the generator itself is
absent from the sources): whenever the single generation attempt fails
(`none` covers malformed or incomplete output and transport/timeout
errors), the run invokes the deterministic allocator on the identical
backlog and the canonical Monday–Friday window, so the completeness
invariant holds regardless of generator behavior; and the run consults
only attempt 0, i.e. exactly one generation attempt is made. -/
theorem generator_fallback (gen : Nat → Option (List (Nat × List Task)))
    (issues : List Task) (today : Nat) (hfail : gen 0 = none) :
    runPlanner gen issues today = planTasks issues (canonicalWindow today)
    ∧ ((planTasks issues (canonicalWindow today)).map Prod.snd).join.Perm issues
    ∧ ∀ gen2 : Nat → Option (List (Nat × List Task)),
        gen2 0 = gen 0 → runPlanner gen2 issues today = runPlanner gen issues today := by
  have hwin : canonicalWindow today ≠ [] := by
    unfold canonicalWindow
    intro he
    have hl := congrArg List.length he
    simp at hl
  refine ⟨?_, planTasks_join_perm issues _ hwin, ?_⟩
  · unfold runPlanner
    rw [hfail]
  · intro gen2 h2
    unfold runPlanner
    rw [h2]

theorem generator_fallback_witness :
    runPlanner (fun _ => none) [mkTask 2 3] 9 = planTasks [mkTask 2 3] (canonicalWindow 9)
    ∧ ((planTasks [mkTask 2 3] (canonicalWindow 9)).map Prod.snd).join.Perm [mkTask 2 3] :=
  ⟨(generator_fallback (fun _ => none) [mkTask 2 3] 9 rfl).1,
   (generator_fallback (fun _ => none) [mkTask 2 3] 9 rfl).2.1⟩

/-- C9 counterexample: at the run instant 2024-12-30 the ISO week date is
2025-W01 (ISO year 2025), but `save_plan` keys the plan with the calendar
year: `"2024-W01"`, which is not the ISO week identifier of that
instant — the claim as stated fails. -/
theorem week_key_counterexample :
    weekKey ⟨2024, 12, 30⟩ = "2024-W01"
    ∧ isoWeekKey ⟨2024, 12, 30⟩ = "2025-W01"
    ∧ weekKey ⟨2024, 12, 30⟩ ≠ isoWeekKey ⟨2024, 12, 30⟩ := by
  refine ⟨by decide, by decide, by decide⟩

/-- C9 amended: the persisted plan is keyed by
`<4-digit calendar year>-W<2-digit ISO week number>` — the *calendar* year
of the run instant paired with the ISO week number; this coincides with
the ISO week identifier exactly on instants whose ISO year equals the
calendar year (it differs on instants such as 2024-12-30). -/
theorem week_key_amended (d : Date) (h : (isocalendar d).1 = d.year) :
    weekKey d = toString d.year ++ "-W" ++ pad2 (isocalendar d).2.1
    ∧ weekKey d = isoWeekKey d := by
  refine ⟨rfl, ?_⟩
  unfold weekKey isoWeekKey
  rw [h]

theorem week_key_amended_witness :
    weekKey ⟨2025, 5, 5⟩
        = toString (2025 : Nat) ++ "-W" ++ pad2 (isocalendar ⟨2025, 5, 5⟩).2.1
    ∧ weekKey ⟨2025, 5, 5⟩ = isoWeekKey ⟨2025, 5, 5⟩ :=
  week_key_amended ⟨2025, 5, 5⟩ (by decide)

end Planner
